import Mathlib

/-!
Verification of the crypt-client core: the encryption envelope
(`src/file.rs`, `mod encryption`), the Locked/Unlocked `CryptFile` typestate
transitions (`src/file.rs`), and the REPL session registry
(`src/repl/mod.rs`).

Modelling conventions:
* Rust byte buffers (`Vec<u8>`, `&[u8]`) are `List Nat` with every byte
  reduced modulo 256 at the point it is produced.
* Rust strings (`String`, `&str`) are modelled as their byte sequences,
  also `List Nat`.
* `HashMap<K, V>` is modelled as an association list with unique keys;
  iteration order is the list order.
* Randomness (`rand::thread_rng`) is an explicit entropy stream
  `ent : Nat → Nat` passed to the operations that draw random bytes.
* The filesystem is an explicit `World` value threaded through the
  stateful operations; Rust code that may panic returns an `RResult`
  with a dedicated `panicked` outcome.
-/

set_option autoImplicit false
set_option maxRecDepth 8000

/-- Result of running Rust code that may panic: `ok` and `err` are the two
sides of `Result`, `panicked` models an uncaught panic. -/
inductive RResult (ε α : Type) where
  | ok (a : α)
  | err (e : ε)
  | panicked
deriving DecidableEq

/-- Byte strings standing in for Rust `String` / `&str` values. -/
abbrev Str : Type := List Nat

/-- `CryptData = HashMap<String, String>`: association list with unique keys. -/
abbrev CryptData : Type := List (Str × Str)

/-- `HashMap` lookup on the association-list model. -/
def aget {α : Type} : List (Str × α) → Str → Option α
  | [], _ => none
  | (k, v) :: m, k2 => if k = k2 then some v else aget m k2

/-- `HashMap::remove` on the association-list model: drops the binding. -/
def aremove {α : Type} (m : List (Str × α)) (k : Str) : List (Str × α) :=
  m.filter fun kv => decide (kv.1 ≠ k)

/-- `HashMap::insert` on the association-list model: replaces any prior
binding for the key. -/
def ainsert {α : Type} (m : List (Str × α)) (k : Str) (v : α) : List (Str × α) :=
  (k, v) :: aremove m k

namespace encryption

/-- `const KEY_LEN: usize = 32` -/
def KEY_LEN : Nat := 32

/-- `const IV_LEN: usize = 16` -/
def IV_LEN : Nat := 16

/-- `const SALT_LEN: usize = 16` -/
def SALT_LEN : Nat := 16

/-- `const SECRET_LEN: usize = 128` -/
def SECRET_LEN : Nat := 128

/-- AES block size (16 bytes), fixed by the `Aes256` cipher of the
`block_modes::Cbc` instantiation. -/
def BLOCK_LEN : Nat := 16

/-- `encryption::Error`: `DeriveKey(argonautica::Error)` or
`InvalidKeyLength(block_modes::InvalidKeyIvLength)`. -/
inductive Error where
  | deriveKey
  | invalidKeyLength
deriving DecidableEq

/-- `random_bytes::<LEN>()`: reads `len` bytes of the entropy stream `ent`
starting at offset `off`; each drawn value is a byte. -/
def random_bytes (ent : Nat → Nat) (off len : Nat) : List Nat :=
  (List.range len).map fun i => ent (off + i) % 256

/-- Modelled from the spec: the Argon2 password hash of the external
`argonautica` crate (not part of this repository) is a deterministic
function of password, salt and secret.  This fold is the concrete mixing
function standing in for it. -/
def kdfMix (bs : List Nat) : Nat :=
  bs.foldl (fun a b => (a * 131 + b + 7) % 1000003) 17

/-- Modelled from the spec: `recover_key` derives a `KEY_LEN = 32` byte key
from the password, salt and secret, deterministically (the spec requires
determinism so that decryption re-derives the same key from the stored
salt/secret).  The `argonautica` configuration-failure branch never fires
(per the spec it is not a runtime condition), so the model is total. -/
def recover_key (password salt secret : List Nat) : List Nat :=
  let m := kdfMix (password ++ [257] ++ salt ++ [258] ++ secret)
  (List.range KEY_LEN).map fun i => (m * (2 * i + 3) + i * i) % 256

/-- Byte-wise XOR of two buffers (truncates to the shorter one). -/
def xorBlock (a b : List Nat) : List Nat :=
  List.zipWith (fun x y => x ^^^ y) a b

/-- Modelled from the spec: AES-256 (external `aes` crate) is a keyed
permutation on 16-byte blocks; the model uses XOR with a 16-byte stream
mixed from the 32-byte key. -/
def keyStream (key : List Nat) : List Nat :=
  xorBlock (key.take 16) (key.drop 16)

/-- Model block-cipher encryption of a single block. -/
def blockEnc (key block : List Nat) : List Nat :=
  xorBlock block (keyStream key)

/-- Model block-cipher decryption of a single block (XOR is an involution). -/
def blockDec (key block : List Nat) : List Nat :=
  xorBlock block (keyStream key)

/-- PKCS#7 padding (`block_modes::block_padding::Pkcs7`): append `n` copies
of `n` where `n = 16 - len % 16` (always between 1 and 16). -/
def pkcs7Pad (data : List Nat) : List Nat :=
  let n := BLOCK_LEN - data.length % BLOCK_LEN
  data ++ List.replicate n n

/-- PKCS#7 unpadding: fails (models the crate's padding error) unless the
buffer is a nonempty multiple of the block size whose last byte `n` lies in
`1..=16` and whose last `n` bytes all equal `n`. -/
def pkcs7Unpad (data : List Nat) : Option (List Nat) :=
  if data.length % BLOCK_LEN ≠ 0 ∨ data.length = 0 then none
  else
    let n := data.getLastD 0
    if 1 ≤ n ∧ n ≤ BLOCK_LEN ∧ n ≤ data.length ∧ (data.drop (data.length - n)).all (fun b => b = n)
    then some (data.take (data.length - n))
    else none

/-- Fueled worker for `toBlocks`; the fuel only bounds the recursion depth
and is always sufficient when it starts at the buffer length. -/
def toBlocksF : Nat → List Nat → List (List Nat)
  | _, [] => []
  | 0, _ :: _ => []
  | fuel + 1, a :: rest =>
    (a :: rest).take BLOCK_LEN :: toBlocksF fuel ((a :: rest).drop BLOCK_LEN)

/-- Split a buffer into consecutive 16-byte blocks. -/
def toBlocks (l : List Nat) : List (List Nat) :=
  toBlocksF l.length l

/-- Concatenate blocks back into one buffer. -/
def fromBlocks (bs : List (List Nat)) : List Nat :=
  bs.flatten

/-- CBC-mode encryption over a block list, chaining from `prev`
(initially the IV). -/
def cbcEncBlocks (key : List Nat) : List Nat → List (List Nat) → List (List Nat)
  | _, [] => []
  | prev, b :: bs =>
    let c := blockEnc key (xorBlock b prev)
    c :: cbcEncBlocks key c bs

/-- CBC-mode decryption over a block list, chaining from `prev`
(initially the IV). -/
def cbcDecBlocks (key : List Nat) : List Nat → List (List Nat) → List (List Nat)
  | _, [] => []
  | prev, c :: cs => xorBlock (blockDec key c) prev :: cbcDecBlocks key c cs

/-- Modelled from the spec: `Aes256Cbc::encrypt_vec` of the external
`block_modes` crate — PKCS#7-pad the plaintext, then CBC-encrypt. -/
def encrypt_vec (key iv data : List Nat) : List Nat :=
  fromBlocks (cbcEncBlocks key iv (toBlocks (pkcs7Pad data)))

/-- Modelled from the spec: `Aes256Cbc::decrypt_vec` — CBC-decrypt then
unpad; `none` models `BlockModeError` (buffer not a whole number of blocks,
or invalid padding — the primary wrong-password signal). -/
def decrypt_vec (key iv data : List Nat) : Option (List Nat) :=
  if data.length % BLOCK_LEN = 0 then
    pkcs7Unpad (fromBlocks (cbcDecBlocks key iv (toBlocks data)))
  else none

/-- `encrypt_slice`: draw fresh salt, secret and iv from the entropy
stream (in that order, matching `create_key` then the iv draw), derive the
key, CBC-encrypt, and emit `salt || secret || iv || ciphertext`.  The
`Result` type mirrors the source; the error branches (`DeriveKey`,
`InvalidKeyLength`) never fire with the fixed-size keys used here. -/
def encrypt_slice (password : Str) (data : List Nat) (ent : Nat → Nat) :
    Except Error (List Nat) :=
  let salt := random_bytes ent 0 SALT_LEN
  let secret := random_bytes ent SALT_LEN SECRET_LEN
  let key := recover_key password salt secret
  let iv := random_bytes ent (SALT_LEN + SECRET_LEN) IV_LEN
  .ok (salt ++ secret ++ iv ++ encrypt_vec key iv data)

/-- `DATA_START = SALT_LEN + SECRET_LEN + IV_LEN = 160`: offset of the
ciphertext inside the envelope. -/
def DATA_START : Nat := SALT_LEN + SECRET_LEN + IV_LEN

/-- The four slices taken by `decrypt_slice`:
`salt = data[0..16]`, `secret = data[16..144]`, `iv = data[144..160]`,
`encrypted = data[160..]`. -/
def parseEnvelope (data : List Nat) : List Nat × List Nat × List Nat × List Nat :=
  (data.take SALT_LEN,
   (data.drop SALT_LEN).take SECRET_LEN,
   (data.drop (SALT_LEN + SECRET_LEN)).take IV_LEN,
   data.drop DATA_START)

/-- `decrypt_slice`: slice the envelope at the fixed offsets, re-derive the
key, decrypt.  Rust slicing `&data[a..b]` panics when `b > data.len()`, so
any input shorter than 160 bytes panics; the source calls
`.unwrap()` on `decrypt_vec`, so a decryption/padding failure also
panics. -/
def decrypt_slice (password : Str) (data : List Nat) : RResult Error (List Nat) :=
  if data.length < DATA_START then .panicked
  else
    let key := recover_key password (parseEnvelope data).1 (parseEnvelope data).2.1
    match decrypt_vec key (parseEnvelope data).2.2.1 (parseEnvelope data).2.2.2 with
    | some plain => .ok plain
    | none => .panicked

end encryption

/-- `CryptFileError`: `Encrypt(EncryptError)`, `Io(std::io::Error)`,
`Bincode(bincode2::Error)`. -/
inductive CryptFileError where
  | encrypt (e : encryption.Error)
  | ioError
  | bincode
deriving DecidableEq

/-- Modelled from the spec: the external `bincode2` crate's fixed-int
encoding writes every length as a little-endian `u64`. -/
def encodeU64 (n : Nat) : List Nat :=
  (List.range 8).map fun i => n / 256 ^ i % 256

/-- Little-endian `u64` read, inverse of `encodeU64` below `2 ^ 64`. -/
def decodeU64 (bs : List Nat) : Nat :=
  bs.foldr (fun b acc => b + 256 * acc) 0

/-- A `bincode2` string: `u64` byte length, then the bytes. -/
def encodeStr (s : Str) : List Nat :=
  encodeU64 s.length ++ s

/-- Modelled from the spec: `bincode2::serialize` of a
`HashMap<String, String>` — entry count as `u64`, then each key/value pair
as two length-prefixed strings, in iteration order.  Serialization of a
string map never fails, but the `Result` shape of the source is kept. -/
def serialize_bytes (d : CryptData) : List Nat :=
  encodeU64 d.length ++ (d.map fun kv => encodeStr kv.1 ++ encodeStr kv.2).flatten

/-- `bincode2::serialize(&self.state.data)`. -/
def bincode_serialize (d : CryptData) : Except CryptFileError (List Nat) :=
  .ok (serialize_bytes d)

/-- Parse one length-prefixed string, returning it and the remaining
bytes; `none` models a `bincode2` decode error (truncated input). -/
def parseStr (bs : List Nat) : Option (Str × List Nat) :=
  if 8 ≤ bs.length then
    let n := decodeU64 (bs.take 8)
    let rest := bs.drop 8
    if n ≤ rest.length then some (rest.take n, rest.drop n) else none
  else none

/-- Parse `n` key/value entries. -/
def parseEntries : Nat → List Nat → Option (CryptData × List Nat)
  | 0, bs => some ([], bs)
  | n + 1, bs =>
    match parseStr bs with
    | none => none
    | some (k, bs1) =>
      match parseStr bs1 with
      | none => none
      | some (v, bs2) =>
        match parseEntries n bs2 with
        | none => none
        | some (tail, bs3) => some ((k, v) :: tail, bs3)

/-- Modelled from the spec: `bincode2::deserialize` of a
`HashMap<String, String>` — read the `u64` entry count, then that many
key/value string pairs; any truncation is a decode error. -/
def bincode_deserialize (bs : List Nat) : Option CryptData :=
  if 8 ≤ bs.length then
    match parseEntries (decodeU64 (bs.take 8)) (bs.drop 8) with
    | some (d, _) => some d
    | none => none
  else none

/-- The filesystem and its failure injection: `files` maps a path to its
byte contents; `openFails p` makes `OpenOptions::open` for writing fail at
`p` with an I/O error, `writeFails p` makes `write_all` fail at `p`. -/
structure World where
  files : List (Str × List Nat)
  openFails : Str → Bool
  writeFails : Str → Bool

/-- `Path::exists` / reading a file: look the path up. -/
def fsGet (w : World) (p : Str) : Option (List Nat) :=
  aget w.files p

/-- Store contents at a path. -/
def fsPut (w : World) (p : Str) (c : List Nat) : World :=
  { w with files := ainsert w.files p c }

/-- `CryptFile<LockedFile>` (alias `LockedCrypt`): just the path, no
plaintext. -/
structure LockedCrypt where
  filepath : Str
deriving DecidableEq

/-- `CryptFile<UnlockedFile>` (alias `UnlockedCrypt`): the path plus the
in-memory `CryptData` mapping. -/
structure UnlockedCrypt where
  filepath : Str
  data : CryptData
deriving DecidableEq

/-- `CryptFile::<LockedFile>::unlock(self, password)`.  A nonexistent path
immediately yields an empty mapping; otherwise the file is read whole,
`decrypt_slice` is applied (which may panic, see its model) and the result
is deserialized.  The source performs no filesystem mutation, so the world
comes back unchanged; read errors on an existing file (the `IoError` case)
are not modelled — reads of existing files succeed. -/
def unlock (self : LockedCrypt) (password : Str) (w : World) :
    RResult CryptFileError UnlockedCrypt × World :=
  match fsGet w self.filepath with
  | none => (.ok ⟨self.filepath, []⟩, w)
  | some encrypted =>
    match encryption.decrypt_slice password encrypted with
    | .panicked => (.panicked, w)
    | .err e => (.err (.encrypt e), w)
    | .ok decrypted =>
      match bincode_deserialize decrypted with
      | none => (.err .bincode, w)
      | some data => (.ok ⟨self.filepath, data⟩, w)

/-- `CryptFile::<UnlockedFile>::lock(self, password)`.  Every failure
branch returns `(self, error)`, handing the caller back the original
unlocked value.  The file is opened with
`OpenOptions::new().write(true).create(true)` — per `std::fs` semantics
this creates a missing file but does *not* truncate an existing one
(there is no `.truncate(true)`), so `write_all` overwrites the prefix and
any prior bytes past the new length survive. -/
def lock (self : UnlockedCrypt) (password : Str) (w : World) (ent : Nat → Nat) :
    Except (UnlockedCrypt × CryptFileError) LockedCrypt × World :=
  match bincode_serialize self.data with
  | .error e => (.error (self, e), w)
  | .ok data =>
    match encryption.encrypt_slice password data ent with
    | .error e => (.error (self, .encrypt e), w)
    | .ok encrypted =>
      if w.openFails self.filepath then (.error (self, .ioError), w)
      else
        let old := (fsGet w self.filepath).getD []
        let w1 := fsPut w self.filepath old
        if w.writeFails self.filepath then (.error (self, .ioError), w1)
        else (.ok ⟨self.filepath⟩, fsPut w1 self.filepath (encrypted ++ old.drop encrypted.length))

/-- `Repl` (session registry): `open_files: HashMap<String, (String, CryptFile<UnlockedFile>)>`,
mapping an alias to the password it was opened with and the unlocked
file.  The driver field is I/O glue and is not modelled. -/
structure Repl where
  open_files : List (Str × (Str × UnlockedCrypt))

/-- `Repl::lock_file(alias)`: remove the alias; if absent report
`Ok(false)`; otherwise lock the file, reporting `Ok(true)` on success and
reinserting the entry under the same alias before returning the error on
failure. -/
def lock_file (repl : Repl) (al : Str) (w : World) (ent : Nat → Nat) :
    Except CryptFileError Bool × Repl × World :=
  match aget repl.open_files al with
  | none => (.ok false, repl, w)
  | some (password, file) =>
    let rest := aremove repl.open_files al
    match lock file password w ent with
    | (.ok _, w1) => (.ok true, ⟨rest⟩, w1)
    | (.error (file1, e), w1) => (.error e, ⟨ainsert rest al (password, file1)⟩, w1)

/-- Fresh randomness for each subsequent `lock` call inside the bulk
close: the next call reads the stream past the 160 bytes this one drew. -/
def shiftEnt (ent : Nat → Nat) : Nat → Nat :=
  fun n => ent (n + 160)

/-- The iteration inside `Repl::lock_all_files`: lock each entry in turn;
entries whose lock fails are collected (with the unlocked value handed
back by `lock` and their error) and the rest are dropped, their files
persisted. -/
def lockAllGo :
    List (Str × (Str × UnlockedCrypt)) → World → (Nat → Nat) →
    (List (Str × (Str × UnlockedCrypt)) × List (Str × CryptFileError)) × World
  | [], w, _ => (([], []), w)
  | (al, (password, file)) :: rest, w, ent =>
    match lock file password w ent with
    | (.ok _, w1) => lockAllGo rest w1 (shiftEnt ent)
    | (.error (file1, e), w1) =>
      let res := lockAllGo rest w1 (shiftEnt ent)
      (((al, (password, file1)) :: res.1.1, (al, e) :: res.1.2), res.2)

/-- `Repl::lock_all_files`: take the whole registry, lock every entry;
if nothing failed the registry is left empty and `Ok(())` is returned,
otherwise the failing entries are put back and the alias-to-error report
is returned. -/
def lock_all_files (repl : Repl) (w : World) (ent : Nat → Nat) :
    Except (List (Str × CryptFileError)) Unit × Repl × World :=
  let res := lockAllGo repl.open_files w ent
  if res.1.1.isEmpty then (.ok (), ⟨[]⟩, res.2)
  else (.error res.1.2, ⟨res.1.1⟩, res.2)

/-- `u64` range check: Rust buffers cannot exceed `2 ^ 64 - 1` entries, so
the `bincode2` length prefixes of a mapping produced by the program always
fit; the check is explicit here because the model uses unbounded lists. -/
def dataFits (d : CryptData) : Bool :=
  decide (d.length < 2 ^ 64) &&
  d.all fun kv => decide (kv.1.length < 2 ^ 64) && decide (kv.2.length < 2 ^ 64)

/-! ## Association-list lemmas -/

theorem aget_aremove_self {α : Type} (m : List (Str × α)) (k : Str) :
    aget (aremove m k) k = none := by
  induction m with
  | nil => rfl
  | cons kv m ih =>
    by_cases h : kv.1 = k
    · simpa [aremove, h] using ih
    · simpa [aremove, h, aget] using ih

theorem aget_aremove_ne {α : Type} (m : List (Str × α)) (k k2 : Str) (h : k2 ≠ k) :
    aget (aremove m k) k2 = aget m k2 := by
  induction m with
  | nil => rfl
  | cons kv m ih =>
    obtain ⟨k1, v1⟩ := kv
    have hkk2 : ¬ (k = k2) := fun e => h e.symm
    by_cases hk : k1 = k
    · have hne : ¬ (k1 = k2) := fun e => h (e ▸ hk)
      simp [aremove, List.filter_cons, hk, aget, hne, hkk2] at *
      exact ih
    · by_cases hk2 : k1 = k2
      · subst hk2
        simp [aremove, List.filter_cons, aget, hk, h]
      · have ih2 := ih
        simp only [aremove, ne_eq, decide_not] at ih2
        simp [aremove, List.filter_cons, hk, aget, hk2, ih2]

theorem aget_ainsert_self {α : Type} (m : List (Str × α)) (k : Str) (v : α) :
    aget (ainsert m k v) k = some v := by
  simp [ainsert, aget]

theorem aget_ainsert_ne {α : Type} (m : List (Str × α)) (k k2 : Str) (v : α) (h : k2 ≠ k) :
    aget (ainsert m k v) k2 = aget m k2 := by
  have : k ≠ k2 := h.symm
  simp [ainsert, aget, this, aget_aremove_ne m k k2 h]

theorem aget_ainsert_isSome {α : Type} (m : List (Str × α)) (k k2 : Str) (v : α)
    (h : (aget m k2).isSome) : (aget (ainsert m k v) k2).isSome := by
  by_cases hk : k2 = k
  · subst hk; simp [aget_ainsert_self]
  · rwa [aget_ainsert_ne m k k2 v hk]

/-! ## Crypto-model lemmas -/

namespace encryption

theorem length_random_bytes (ent : Nat → Nat) (off len : Nat) :
    (random_bytes ent off len).length = len := by
  simp [random_bytes]

theorem length_recover_key (password salt secret : List Nat) :
    (recover_key password salt secret).length = 32 := by
  simp [recover_key, KEY_LEN]

theorem length_xorBlock (a b : List Nat) :
    (xorBlock a b).length = min a.length b.length := by
  simp [xorBlock]

theorem length_keyStream (key : List Nat) (h : key.length = 32) :
    (keyStream key).length = 16 := by
  simp [keyStream, length_xorBlock, h]

theorem xorBlock_cancel (a b : List Nat) (h : a.length = b.length) :
    xorBlock (xorBlock a b) b = a := by
  induction a generalizing b with
  | nil => simp [xorBlock]
  | cons x xs ih =>
    cases b with
    | nil => simp at h
    | cons y ys =>
      have hx : (x ^^^ y) ^^^ y = x := by
        rw [Nat.xor_assoc, Nat.xor_self, Nat.xor_zero]
      have hl : xs.length = ys.length := by simpa using h
      simp only [xorBlock, List.zipWith] at *
      rw [hx, ih ys hl]

theorem blockDec_blockEnc (key b : List Nat) (hk : key.length = 32)
    (hb : b.length = 16) :
    blockDec key (blockEnc key b) = b := by
  have hks : (keyStream key).length = 16 := length_keyStream key hk
  simp only [blockEnc, blockDec]
  exact xorBlock_cancel b (keyStream key) (by rw [hb, hks])

theorem length_blockEnc (key b : List Nat) (hk : key.length = 32)
    (hb : b.length = 16) : (blockEnc key b).length = 16 := by
  simp [blockEnc, length_xorBlock, hb, length_keyStream key hk]

theorem length_pkcs7Pad (d : List Nat) :
    (pkcs7Pad d).length = d.length + (16 - d.length % 16) := by
  simp [pkcs7Pad, BLOCK_LEN]

theorem length_pkcs7Pad_mod (d : List Nat) : (pkcs7Pad d).length % 16 = 0 := by
  rw [length_pkcs7Pad]
  omega

theorem length_pkcs7Pad_pos (d : List Nat) : 0 < (pkcs7Pad d).length := by
  rw [length_pkcs7Pad]
  omega

theorem getLastD_append_replicate (l : List Nat) (n a d : Nat) (hn : n ≠ 0) :
    (l ++ List.replicate n a).getLastD d = a := by
  cases n with
  | zero => exact absurd rfl hn
  | succ m =>
    rw [List.replicate_succ', ← List.append_assoc]
    exact List.getLastD_concat _ _ _

theorem pkcs7Unpad_pad (d : List Nat) : pkcs7Unpad (pkcs7Pad d) = some d := by
  have hr : d.length % 16 < 16 := Nat.mod_lt _ (by omega)
  set n := 16 - d.length % 16 with hn
  have hn1 : 1 ≤ n := by omega
  have hn16 : n ≤ 16 := by omega
  have hpadeq : pkcs7Pad d = d ++ List.replicate n n := rfl
  have hlen : (pkcs7Pad d).length = d.length + n := by
    rw [hpadeq]
    simp
  have hmod : (pkcs7Pad d).length % 16 = 0 := length_pkcs7Pad_mod d
  have hpos : (pkcs7Pad d).length ≠ 0 := by
    have := length_pkcs7Pad_pos d
    omega
  have hlast : (pkcs7Pad d).getLastD 0 = n := by
    rw [hpadeq]
    exact getLastD_append_replicate d n n 0 (by omega)
  rw [pkcs7Unpad]
  rw [if_neg (by
    simp only [BLOCK_LEN]
    push_neg
    exact ⟨hmod, hpos⟩)]
  simp only [hlast, BLOCK_LEN]
  rw [if_pos]
  · have htake : (pkcs7Pad d).take ((pkcs7Pad d).length - n) = d := by
      rw [hpadeq]
      have he : (d ++ List.replicate n n).length - n = d.length := by simp
      rw [he]
      exact List.take_left d _
    rw [htake]
  · refine ⟨hn1, hn16, by omega, ?_⟩
    have hdrop : (pkcs7Pad d).drop ((pkcs7Pad d).length - n) = List.replicate n n := by
      rw [hpadeq]
      have he : (d ++ List.replicate n n).length - n = d.length := by simp
      rw [he]
      exact List.drop_left d _
    rw [hdrop]
    simp [List.all_eq_true, List.mem_replicate]

theorem toBlocksF_congr (m : Nat) :
    ∀ (n : Nat) (l : List Nat), l.length ≤ m → l.length ≤ n →
      toBlocksF m l = toBlocksF n l := by
  induction m with
  | zero =>
    intro n l hm _
    have : l = [] := List.length_eq_zero.mp (by omega)
    subst this
    cases n <;> rfl
  | succ m ih =>
    intro n l hm hn
    cases l with
    | nil => cases n <;> rfl
    | cons a rest =>
      cases n with
      | zero => simp at hn
      | succ n2 =>
        simp only [toBlocksF]
        congr 1
        apply ih
        · simp only [List.length_drop, List.length_cons, BLOCK_LEN]
          simp only [List.length_cons] at hm
          omega
        · simp only [List.length_drop, List.length_cons, BLOCK_LEN]
          simp only [List.length_cons] at hn
          omega

theorem toBlocks_nil : toBlocks [] = [] := rfl

theorem toBlocks_cons (l : List Nat) (h : l ≠ []) :
    toBlocks l = l.take 16 :: toBlocks (l.drop 16) := by
  cases l with
  | nil => exact absurd rfl h
  | cons a rest =>
    show toBlocksF (a :: rest).length (a :: rest) = _
    rw [List.length_cons]
    show (a :: rest).take BLOCK_LEN :: toBlocksF rest.length ((a :: rest).drop BLOCK_LEN) = _
    rw [show (BLOCK_LEN : Nat) = 16 from rfl]
    rw [toBlocksF_congr rest.length ((a :: rest).drop 16).length ((a :: rest).drop 16)
      (by simp only [List.length_drop, List.length_cons]; omega) le_rfl]
    rfl

theorem flatten_toBlocks (l : List Nat) : (toBlocks l).flatten = l := by
  suffices hs : ∀ len (l2 : List Nat), l2.length = len → (toBlocks l2).flatten = l2 from
    hs l.length l rfl
  intro len
  induction len using Nat.strong_induction_on with
  | _ len ih =>
    intro l2 hlen
    cases l2 with
    | nil => rfl
    | cons a rest =>
      simp only [List.length_cons] at hlen
      rw [toBlocks_cons _ (by simp)]
      simp only [List.flatten_cons]
      rw [ih ((a :: rest).drop 16).length (by
        simp only [List.length_drop, List.length_cons]
        omega) _ rfl]
      exact List.take_append_drop 16 (a :: rest)

theorem toBlocks_block_length (l : List Nat) (h : l.length % 16 = 0) :
    ∀ b ∈ toBlocks l, b.length = 16 := by
  suffices hs : ∀ len (l2 : List Nat), l2.length = len → l2.length % 16 = 0 →
      ∀ b ∈ toBlocks l2, b.length = 16 from hs l.length l rfl h
  intro len
  induction len using Nat.strong_induction_on with
  | _ len ih =>
    intro l2 hlen h2
    cases l2 with
    | nil => simp [toBlocks_nil]
    | cons a rest =>
      simp only [List.length_cons] at hlen h2
      have hge : 16 ≤ rest.length + 1 := by omega
      rw [toBlocks_cons _ (by simp)]
      intro b hb
      rcases List.mem_cons.mp hb with hb1 | hb2
      · subst hb1
        simp only [List.length_take, List.length_cons]
        omega
      · exact ih ((a :: rest).drop 16).length (by
          simp only [List.length_drop, List.length_cons]
          omega) _ rfl (by
            simp only [List.length_drop, List.length_cons]
            omega) b hb2

theorem toBlocks_flatten (bs : List (List Nat)) (h : ∀ b ∈ bs, b.length = 16) :
    toBlocks bs.flatten = bs := by
  induction bs with
  | nil => rfl
  | cons b rest ih =>
    have hb : b.length = 16 := h b (by simp)
    have hbne : b ≠ [] := by
      intro e
      rw [e] at hb
      simp at hb
    simp only [List.flatten_cons]
    have hne : b ++ rest.flatten ≠ [] := by
      intro e
      exact hbne (List.append_eq_nil.mp e).1
    rw [toBlocks_cons _ hne]
    rw [← hb, List.take_left, List.drop_left]
    rw [ih fun x hx => h x (by simp [hx])]

theorem cbcEnc_block_length (key : List Nat) (hk : key.length = 32) :
    ∀ (prev : List Nat) (bs : List (List Nat)), prev.length = 16 →
      (∀ b ∈ bs, b.length = 16) →
      ∀ c ∈ cbcEncBlocks key prev bs, c.length = 16 := by
  intro prev bs
  induction bs generalizing prev with
  | nil => intro _ _ c hc; simp [cbcEncBlocks] at hc
  | cons b rest ih =>
    intro hprev hall c hc
    have hb : b.length = 16 := hall b (by simp)
    have hxb : (xorBlock b prev).length = 16 := by
      rw [length_xorBlock, hb, hprev]
      omega
    have henc : (blockEnc key (xorBlock b prev)).length = 16 :=
      length_blockEnc key _ hk hxb
    simp only [cbcEncBlocks] at hc
    rcases List.mem_cons.mp hc with h1 | h2
    · rw [h1]; exact henc
    · exact ih _ henc (fun x hx => hall x (by simp [hx])) c h2

theorem cbcDec_cbcEnc (key : List Nat) (hk : key.length = 32) :
    ∀ (bs : List (List Nat)) (prev : List Nat), prev.length = 16 →
      (∀ b ∈ bs, b.length = 16) →
      cbcDecBlocks key prev (cbcEncBlocks key prev bs) = bs := by
  intro bs
  induction bs with
  | nil => intro prev _ _; rfl
  | cons b rest ih =>
    intro prev hprev hall
    have hb : b.length = 16 := hall b (by simp)
    have hxb : (xorBlock b prev).length = 16 := by
      rw [length_xorBlock, hb, hprev]
      omega
    have henc : (blockEnc key (xorBlock b prev)).length = 16 :=
      length_blockEnc key _ hk hxb
    simp only [cbcEncBlocks, cbcDecBlocks]
    rw [blockDec_blockEnc key _ hk hxb,
        xorBlock_cancel b prev (by rw [hb, hprev]),
        ih _ henc fun x hx => hall x (by simp [hx])]

theorem length_flatten_blocks (bs : List (List Nat))
    (h : ∀ b ∈ bs, b.length = 16) : bs.flatten.length = 16 * bs.length := by
  induction bs with
  | nil => rfl
  | cons b rest ih =>
    simp only [List.flatten_cons, List.length_append, List.length_cons]
    rw [h b (by simp), ih fun x hx => h x (by simp [hx])]
    ring

theorem decrypt_encrypt_vec (key iv data : List Nat) (hk : key.length = 32)
    (hiv : iv.length = 16) :
    decrypt_vec key iv (encrypt_vec key iv data) = some data := by
  have hpadmod : (pkcs7Pad data).length % 16 = 0 := length_pkcs7Pad_mod data
  have hblocks : ∀ b ∈ toBlocks (pkcs7Pad data), b.length = 16 :=
    toBlocks_block_length _ hpadmod
  have hencblocks : ∀ c ∈ cbcEncBlocks key iv (toBlocks (pkcs7Pad data)), c.length = 16 :=
    cbcEnc_block_length key hk iv _ hiv hblocks
  have hlenc : (encrypt_vec key iv data).length % 16 = 0 := by
    rw [encrypt_vec, fromBlocks, length_flatten_blocks _ hencblocks]
    omega
  rw [decrypt_vec, if_pos (by simpa [BLOCK_LEN] using hlenc)]
  have h1 : toBlocks (encrypt_vec key iv data) = cbcEncBlocks key iv (toBlocks (pkcs7Pad data)) := by
    rw [encrypt_vec, fromBlocks]
    exact toBlocks_flatten _ hencblocks
  rw [h1, cbcDec_cbcEnc key hk _ iv hiv hblocks, fromBlocks, flatten_toBlocks]
  exact pkcs7Unpad_pad data

theorem parseEnvelope_append (salt secret iv ct : List Nat)
    (h1 : salt.length = 16) (h2 : secret.length = 128) (h3 : iv.length = 16) :
    parseEnvelope (salt ++ secret ++ iv ++ ct) = (salt, secret, iv, ct) := by
  have hassoc : salt ++ secret ++ iv ++ ct = salt ++ (secret ++ (iv ++ ct)) := by
    simp [List.append_assoc]
  have e1 : (salt ++ (secret ++ (iv ++ ct))).take 16 = salt := by
    rw [← h1]
    exact List.take_left _ _
  have e2 : (salt ++ (secret ++ (iv ++ ct))).drop 16 = secret ++ (iv ++ ct) := by
    rw [← h1]
    exact List.drop_left _ _
  have e3 : (salt ++ (secret ++ (iv ++ ct))).drop 144 = iv ++ ct := by
    have h144 : (144 : Nat) = 16 + 128 := by norm_num
    rw [h144, ← List.drop_drop, e2, ← h2]
    exact List.drop_left _ _
  have e4 : (salt ++ (secret ++ (iv ++ ct))).drop 160 = ct := by
    have h160 : (160 : Nat) = 144 + 16 := by norm_num
    rw [h160, ← List.drop_drop, e3, ← h3]
    exact List.drop_left _ _
  rw [hassoc, parseEnvelope]
  rw [show SALT_LEN = 16 from rfl, show SECRET_LEN = 128 from rfl,
      show IV_LEN = 16 from rfl, show DATA_START = 160 from rfl,
      show (16 + 128 : Nat) = 144 from rfl]
  rw [e1, e2, e3, e4]
  rw [← h2, List.take_left, ← h3, List.take_left]

/-- The envelope produced by a (necessarily successful) `encrypt_slice`. -/
theorem encrypt_slice_eq (password data : List Nat) (ent : Nat → Nat) :
    encrypt_slice password data ent =
      Except.ok (random_bytes ent 0 16 ++ random_bytes ent 16 128 ++
        random_bytes ent 144 16 ++
        encrypt_vec (recover_key password (random_bytes ent 0 16) (random_bytes ent 16 128))
          (random_bytes ent 144 16) data) := rfl

theorem decrypt_encrypt_slice (password data : List Nat) (ent : Nat → Nat) (enc : List Nat)
    (h : encrypt_slice password data ent = Except.ok enc) :
    decrypt_slice password enc = .ok data := by
  set salt := random_bytes ent 0 16 with hsalt
  set secret := random_bytes ent 16 128 with hsecret
  set iv := random_bytes ent 144 16 with hiv
  set key := recover_key password salt secret with hkey
  have henc : enc = salt ++ secret ++ iv ++ encrypt_vec key iv data := by
    rw [encrypt_slice_eq] at h
    exact (Except.ok.injEq _ _).mp h.symm |>.symm ▸ by
      cases h
      rfl
  have hls : salt.length = 16 := length_random_bytes ent 0 16
  have hlsec : secret.length = 128 := length_random_bytes ent 16 128
  have hliv : iv.length = 16 := length_random_bytes ent 144 16
  have hlkey : key.length = 32 := length_recover_key password salt secret
  have hparse : parseEnvelope enc = (salt, secret, iv, encrypt_vec key iv data) := by
    rw [henc]
    exact parseEnvelope_append _ _ _ _ hls hlsec hliv
  have hlen : ¬ enc.length < DATA_START := by
    rw [henc]
    simp only [List.length_append, hls, hlsec, hliv]
    rw [show DATA_START = 160 from rfl]
    omega
  rw [decrypt_slice, if_neg hlen, hparse]
  simp only
  rw [decrypt_encrypt_vec key iv data hlkey hliv]

end encryption

/-! ## Serialization-codec lemmas -/

theorem length_encodeU64 (n : Nat) : (encodeU64 n).length = 8 := by
  simp [encodeU64]

theorem decode_encodeU64 (n : Nat) (h : n < 2 ^ 64) : decodeU64 (encodeU64 n) = n := by
  have hr : List.range 8 = [0, 1, 2, 3, 4, 5, 6, 7] := by rfl
  rw [encodeU64, hr]
  simp only [List.map_cons, List.map_nil, decodeU64, List.foldr_cons, List.foldr_nil]
  norm_num
  omega

theorem parseStr_encodeStr (s : Str) (rest : List Nat) (h : s.length < 2 ^ 64) :
    parseStr (encodeStr s ++ rest) = some (s, rest) := by
  have h8 : (encodeU64 s.length).length = 8 := length_encodeU64 _
  have hlen : (encodeStr s ++ rest).length = 8 + s.length + rest.length := by
    simp [encodeStr, h8]
    omega
  have htake : (encodeStr s ++ rest).take 8 = encodeU64 s.length := by
    rw [encodeStr, List.append_assoc, ← h8]
    exact List.take_left _ _
  have hdrop : (encodeStr s ++ rest).drop 8 = s ++ rest := by
    rw [encodeStr, List.append_assoc, ← h8]
    exact List.drop_left _ _
  rw [parseStr, if_pos (by omega)]
  simp only [htake, hdrop, decode_encodeU64 _ h]
  rw [if_pos (by simp)]
  rw [List.take_left, List.drop_left]

theorem parseEntries_serialized (d : CryptData) (rest : List Nat)
    (h : ∀ kv ∈ d, kv.1.length < 2 ^ 64 ∧ kv.2.length < 2 ^ 64) :
    parseEntries d.length
      ((d.map fun kv => encodeStr kv.1 ++ encodeStr kv.2).flatten ++ rest) =
      some (d, rest) := by
  induction d with
  | nil => simp [parseEntries]
  | cons kv tail ih =>
    obtain ⟨k, v⟩ := kv
    simp only [List.map_cons, List.flatten_cons, List.length_cons]
    rw [parseEntries]
    rw [List.append_assoc, List.append_assoc]
    rw [parseStr_encodeStr k _ (h (k, v) (by simp)).1]
    simp only
    rw [parseStr_encodeStr v _ (h (k, v) (by simp)).2]
    simp only
    rw [ih fun kv2 hkv2 => h kv2 (by simp [hkv2])]

theorem bincode_roundtrip (d : CryptData) (h : dataFits d = true) :
    bincode_deserialize (serialize_bytes d) = some d := by
  have hd : d.length < 2 ^ 64 := by
    simp only [dataFits, Bool.and_eq_true, decide_eq_true_eq] at h
    exact h.1
  have hall : ∀ kv ∈ d, kv.1.length < 2 ^ 64 ∧ kv.2.length < 2 ^ 64 := by
    intro kv hkv
    simp only [dataFits, Bool.and_eq_true, List.all_eq_true, decide_eq_true_eq] at h
    exact h.2 kv hkv
  have h8 : (encodeU64 d.length).length = 8 := length_encodeU64 _
  set body := (d.map fun kv => encodeStr kv.1 ++ encodeStr kv.2).flatten with hbody
  have htake : (encodeU64 d.length ++ body).take 8 = encodeU64 d.length := by
    rw [← h8]
    exact List.take_left _ _
  have hdrop : (encodeU64 d.length ++ body).drop 8 = body := by
    rw [← h8]
    exact List.drop_left _ _
  rw [serialize_bytes, bincode_deserialize, if_pos (by simp [h8])]
  rw [htake, hdrop, decode_encodeU64 _ hd]
  have := parseEntries_serialized d [] hall
  rw [List.append_nil] at this
  rw [this]

/-! ## CryptFile transition lemmas -/

theorem lock_error_preserves (self : UnlockedCrypt) (pw : Str) (w : World) (ent : Nat → Nat)
    (u : UnlockedCrypt) (e : CryptFileError)
    (h : (lock self pw w ent).1 = Except.error (u, e)) : u = self := by
  simp only [lock, bincode_serialize] at h
  rw [encryption.encrypt_slice_eq] at h
  simp only at h
  by_cases h1 : w.openFails self.filepath
  · simp only [h1, if_true] at h
    obtain ⟨h2, -⟩ := Prod.mk.injEq .. ▸ (Except.error.injEq _ _).mp h.symm
    exact h2
  · by_cases h2 : w.writeFails self.filepath
    · simp only [h1, h2, if_true, if_false, Bool.false_eq_true] at h
      obtain ⟨h3, -⟩ := Prod.mk.injEq .. ▸ (Except.error.injEq _ _).mp h.symm
      exact h3
    · simp only [h1, h2, if_false, Bool.false_eq_true] at h
      exact absurd h (by simp)

theorem lock_ok_spec (self : UnlockedCrypt) (pw : Str) (w : World) (ent : Nat → Nat)
    (l : LockedCrypt) (w1 : World) (h : lock self pw w ent = (Except.ok l, w1)) :
    l = ⟨self.filepath⟩ ∧
    ∃ enc, encryption.encrypt_slice pw (serialize_bytes self.data) ent = Except.ok enc ∧
      w1 = fsPut (fsPut w self.filepath ((fsGet w self.filepath).getD []))
        self.filepath (enc ++ ((fsGet w self.filepath).getD []).drop enc.length) := by
  simp only [lock, bincode_serialize] at h
  rw [encryption.encrypt_slice_eq] at h
  simp only at h
  by_cases h1 : w.openFails self.filepath
  · simp only [h1, if_true] at h
    exact absurd (congrArg Prod.fst h) (by simp)
  · by_cases h2 : w.writeFails self.filepath
    · simp only [h1, h2, if_true, if_false, Bool.false_eq_true] at h
      exact absurd (congrArg Prod.fst h) (by simp)
    · simp only [h1, h2, if_false, Bool.false_eq_true] at h
      obtain ⟨hl, hw⟩ := Prod.mk.injEq .. ▸ h
      exact ⟨((Except.ok.injEq _ _).mp hl).symm, _, rfl, hw.symm⟩

theorem lock_ok_writes (self : UnlockedCrypt) (pw : Str) (w : World) (ent : Nat → Nat)
    (l : LockedCrypt) (w1 : World) (h : lock self pw w ent = (Except.ok l, w1)) :
    (fsGet w1 self.filepath).isSome := by
  obtain ⟨-, enc, -, hw1⟩ := lock_ok_spec _ _ _ _ _ _ h
  rw [hw1]
  simp only [fsGet, fsPut]
  rw [aget_ainsert_self]
  rfl

theorem lock_world_isSome (self : UnlockedCrypt) (pw : Str) (w : World) (ent : Nat → Nat)
    (p : Str) (h : (fsGet w p).isSome) : (fsGet (lock self pw w ent).2 p).isSome := by
  simp only [lock, bincode_serialize]
  rw [encryption.encrypt_slice_eq]
  simp only
  by_cases h1 : w.openFails self.filepath
  · simpa [h1] using h
  · by_cases h2 : w.writeFails self.filepath
    · simp only [h1, h2, if_true, if_false, Bool.false_eq_true]
      simp only [fsGet, fsPut]
      exact aget_ainsert_isSome _ _ _ _ h
    · simp only [h1, h2, if_false, Bool.false_eq_true]
      simp only [fsGet, fsPut]
      exact aget_ainsert_isSome _ _ _ _ (aget_ainsert_isSome _ _ _ _ h)

theorem lockAllGo_world_isSome (entries : List (Str × (Str × UnlockedCrypt))) :
    ∀ (w : World) (ent : Nat → Nat) (p : Str), (fsGet w p).isSome →
      (fsGet (lockAllGo entries w ent).2 p).isSome := by
  induction entries with
  | nil => intro w ent p h; exact h
  | cons x rest ih =>
    intro w ent p h
    obtain ⟨al, pw, f⟩ := x
    cases hlock : lock f pw w ent with
    | mk r w1 =>
      have h1 : (fsGet w1 p).isSome := by
        have hmono := lock_world_isSome f pw w ent p h
        rw [hlock] at hmono
        exact hmono
      cases r with
      | ok l =>
        simpa only [lockAllGo, hlock] using ih w1 (shiftEnt ent) p h1
      | error pr =>
        obtain ⟨u, e⟩ := pr
        simp only [lockAllGo, hlock]
        exact ih w1 (shiftEnt ent) p h1

namespace encryption

theorem length_cbcEncBlocks (key : List Nat) :
    ∀ (prev : List Nat) (bs : List (List Nat)),
      (cbcEncBlocks key prev bs).length = bs.length := by
  intro prev bs
  induction bs generalizing prev with
  | nil => rfl
  | cons b rest ih => simp only [cbcEncBlocks, List.length_cons, ih]

theorem length_encrypt_vec (key iv data : List Nat) (hk : key.length = 32)
    (hiv : iv.length = 16) :
    (encrypt_vec key iv data).length = (pkcs7Pad data).length := by
  have hpadmod : (pkcs7Pad data).length % 16 = 0 := length_pkcs7Pad_mod data
  have hblocks : ∀ b ∈ toBlocks (pkcs7Pad data), b.length = 16 :=
    toBlocks_block_length _ hpadmod
  have hencblocks : ∀ c ∈ cbcEncBlocks key iv (toBlocks (pkcs7Pad data)), c.length = 16 :=
    cbcEnc_block_length key hk iv _ hiv hblocks
  rw [encrypt_vec, fromBlocks, length_flatten_blocks _ hencblocks, length_cbcEncBlocks]
  have := length_flatten_blocks _ hblocks
  rw [flatten_toBlocks] at this
  omega

end encryption

/-! ## Claim theorems -/

/-- C1: for every Unlocked `CryptFile` and password, if `lock` fails at any
stage (serialization, encryption, opening the file, or writing), it returns
the original Unlocked value together with the error: its in-memory mapping
and path equal those before the call — the mapping is never lost on a
failed save. -/
theorem lock_failed_returns_original (self : UnlockedCrypt) (pw : Str) (w : World)
    (ent : Nat → Nat) (u : UnlockedCrypt) (e : CryptFileError)
    (h : (lock self pw w ent).1 = Except.error (u, e)) :
    u = self ∧ u.data = self.data ∧ u.filepath = self.filepath := by
  have hu := lock_error_preserves self pw w ent u e h
  exact ⟨hu, by rw [hu], by rw [hu]⟩

/-- Witness for C1: a concrete failing save (the open step is made to fail)
hands back exactly the original unlocked value, mapping intact. -/
theorem lock_failed_returns_original_witness :
    ((lock ⟨[112], [([107], [118])]⟩ [97] ⟨[], fun _ => true, fun _ => false⟩ (fun _ => 0)).1
      = Except.error (⟨[112], [([107], [118])]⟩, CryptFileError.ioError)) ∧
    ((⟨[112], [([107], [118])]⟩ : UnlockedCrypt) = ⟨[112], [([107], [118])]⟩ ∧
      (⟨[112], [([107], [118])]⟩ : UnlockedCrypt).data = (⟨[112], [([107], [118])]⟩ : UnlockedCrypt).data ∧
      (⟨[112], [([107], [118])]⟩ : UnlockedCrypt).filepath = (⟨[112], [([107], [118])]⟩ : UnlockedCrypt).filepath) :=
  ⟨rfl, lock_failed_returns_original ⟨[112], [([107], [118])]⟩ [97]
    ⟨[], fun _ => true, fun _ => false⟩ (fun _ => 0)
    ⟨[112], [([107], [118])]⟩ CryptFileError.ioError rfl⟩

/-- C2 (code bug): unlocking a file that was locked under password `"a"`
(byte 97) with the different password `"b"` (byte 98) does not produce a
recoverable `WrongPasswordOrCorrupt`-style error: `decrypt_slice` calls
`.unwrap()` on the failed padding check and the process panics.  (The
source's error type has no wrong-password variant at all.) -/
theorem unlock_wrong_password_panics :
    (unlock ⟨[112]⟩ [98]
      (lock ⟨[112], [([107], [118])]⟩ [97]
        ⟨[], fun _ => false, fun _ => false⟩ (fun _ => 0)).2).1
      = RResult.panicked := by rfl

/-- C4 (code bug): locking over an existing longer file does not truncate.
The path initially holds 177 bytes of `7`; locking an empty mapping
succeeds and writes a 176-byte envelope, but the file afterwards still has
177 bytes: the fresh envelope followed by one stale byte `7` from the prior
contents (`OpenOptions` is configured without `truncate(true)`). -/
theorem lock_does_not_truncate :
    ((lock ⟨[112], []⟩ [97]
        ⟨[([112], List.replicate 177 7)], fun _ => false, fun _ => false⟩ (fun _ => 0)).1
      = Except.ok ⟨[112]⟩) ∧
    (fsGet (lock ⟨[112], []⟩ [97]
        ⟨[([112], List.replicate 177 7)], fun _ => false, fun _ => false⟩ (fun _ => 0)).2 [112]
      = some (((encryption.encrypt_slice [97] (serialize_bytes []) (fun _ => 0)).toOption.getD []) ++ [7])) ∧
    ((encryption.encrypt_slice [97] (serialize_bytes []) (fun _ => 0)).toOption.getD []).length = 176 := by
  refine ⟨rfl, rfl, rfl⟩

/-- C5 counterexample: a 3-byte file at the path makes `unlock` panic
(out-of-bounds slice in `decrypt_slice`), not fail with a recoverable
`MalformedEnvelope` error — no such error variant even exists. -/
theorem unlock_short_file_cex :
    (unlock ⟨[112]⟩ [97] ⟨[([112], [1, 2, 3])], fun _ => false, fun _ => false⟩).1
      = RResult.panicked := by rfl

/-- C5 (amended): for every existing file whose contents are shorter than
`salt+secret+iv = 160` bytes, `unlock` with any password panics (the fixed
slices `data[0..16]`, `data[16..144]`, `data[144..160]` read out of bounds)
instead of returning a recoverable error; it never succeeds. -/
theorem unlock_short_file_panics (p pw : Str) (w : World) (c : List Nat)
    (hc : fsGet w p = some c) (hlen : c.length < 160) :
    (unlock ⟨p⟩ pw w).1 = RResult.panicked := by
  simp only [unlock, hc]
  rw [show encryption.decrypt_slice pw c = RResult.panicked from by
    rw [encryption.decrypt_slice,
      if_pos (show c.length < encryption.DATA_START from hlen)]]

/-- Witness for the amended C5 at a concrete 2-byte file. -/
theorem unlock_short_file_panics_witness :
    (fsGet ⟨[([112], [1, 2])], fun _ => false, fun _ => false⟩ [112] = some [1, 2]) ∧
    ([1, 2] : List Nat).length < 160 ∧
    (unlock ⟨[112]⟩ [99] ⟨[([112], [1, 2])], fun _ => false, fun _ => false⟩).1
      = RResult.panicked :=
  ⟨rfl, by decide, unlock_short_file_panics [112] [99] _ [1, 2] rfl (by decide)⟩

/-- C7: for every path that does not exist on disk and every password,
`unlock` succeeds and produces an Unlocked `CryptFile` with an empty
mapping. -/
theorem unlock_missing_path_empty (p pw : Str) (w : World) (h : fsGet w p = none) :
    (unlock ⟨p⟩ pw w).1 = RResult.ok ⟨p, []⟩ := by
  simp [unlock, h]

/-- Witness for C7 on an empty filesystem. -/
theorem unlock_missing_path_empty_witness :
    (fsGet ⟨[], fun _ => false, fun _ => false⟩ [112] = none) ∧
    (unlock ⟨[112]⟩ [97] ⟨[], fun _ => false, fun _ => false⟩).1
      = RResult.ok ⟨[112], []⟩ :=
  ⟨rfl, unlock_missing_path_empty [112] [97] _ rfl⟩

/-- C9: the envelope written to disk is
`salt (16) || secret (128) || iv (16) || ciphertext`, with the three random
fields drawn in that order, and the decryption path slices a buffer back at
exactly those fixed offsets (`0..16`, `16..144`, `144..160`, `160..`). -/
theorem envelope_layout (pw data : List Nat) (ent : Nat → Nat)
    (salt secret iv ct : List Nat)
    (h1 : salt.length = 16) (h2 : secret.length = 128) (h3 : iv.length = 16) :
    (encryption.encrypt_slice pw data ent = Except.ok
      (encryption.random_bytes ent 0 16 ++ encryption.random_bytes ent 16 128 ++
        encryption.random_bytes ent 144 16 ++
        encryption.encrypt_vec
          (encryption.recover_key pw (encryption.random_bytes ent 0 16)
            (encryption.random_bytes ent 16 128))
          (encryption.random_bytes ent 144 16) data) ∧
      (encryption.random_bytes ent 0 16).length = 16 ∧
      (encryption.random_bytes ent 16 128).length = 128 ∧
      (encryption.random_bytes ent 144 16).length = 16) ∧
    encryption.parseEnvelope (salt ++ secret ++ iv ++ ct) = (salt, secret, iv, ct) :=
  ⟨⟨encryption.encrypt_slice_eq pw data ent,
    encryption.length_random_bytes ent 0 16,
    encryption.length_random_bytes ent 16 128,
    encryption.length_random_bytes ent 144 16⟩,
   encryption.parseEnvelope_append salt secret iv ct h1 h2 h3⟩

/-- Witness for C9 at concrete field values. -/
theorem envelope_layout_witness :
    ((List.replicate 16 1 : List Nat).length = 16 ∧
      (List.replicate 128 2 : List Nat).length = 128 ∧
      (List.replicate 16 3 : List Nat).length = 16) ∧
    encryption.parseEnvelope
        (List.replicate 16 1 ++ List.replicate 128 2 ++ List.replicate 16 3 ++ [9, 9])
      = (List.replicate 16 1, List.replicate 128 2, List.replicate 16 3, [9, 9]) :=
  ⟨⟨by decide, by decide, by decide⟩,
   (envelope_layout [97] [5] (fun _ => 0) (List.replicate 16 1) (List.replicate 128 2)
     (List.replicate 16 3) [9, 9] (by decide) (by decide) (by decide)).2⟩

/-- C10: unlocking a nonexistent path performs no filesystem write — the
world is returned unchanged and the path still does not exist — and a file
appears at the path (only) after a subsequent successful `lock` of an
unlocked file at that path. -/
theorem unlock_no_write_lock_creates (p pw : Str) (w : World) (ent : Nat → Nat)
    (h : fsGet w p = none) :
    (unlock ⟨p⟩ pw w).2 = w ∧
    fsGet (unlock ⟨p⟩ pw w).2 p = none ∧
    (∀ (d : CryptData) (l : LockedCrypt) (w1 : World),
      lock ⟨p, d⟩ pw w ent = (Except.ok l, w1) → (fsGet w1 p).isSome) := by
  refine ⟨?_, ?_, ?_⟩
  · simp [unlock, h]
  · simp [unlock, h]
  · intro d l w1 hl
    exact lock_ok_writes ⟨p, d⟩ pw w ent l w1 hl

/-- Witness for C10: empty filesystem, then a successful lock creates the
file. -/
theorem unlock_no_write_lock_creates_witness :
    (fsGet ⟨[], fun _ => false, fun _ => false⟩ [112] = none) ∧
    ((unlock ⟨[112]⟩ [97] ⟨[], fun _ => false, fun _ => false⟩).2
        = ⟨[], fun _ => false, fun _ => false⟩ ∧
      fsGet (unlock ⟨[112]⟩ [97] ⟨[], fun _ => false, fun _ => false⟩).2 [112] = none ∧
      (∀ (d : CryptData) (l : LockedCrypt) (w1 : World),
        lock ⟨[112], d⟩ [97] ⟨[], fun _ => false, fun _ => false⟩ (fun _ => 0)
          = (Except.ok l, w1) → (fsGet w1 [112]).isSome)) :=
  ⟨rfl, unlock_no_write_lock_creates [112] [97]
    ⟨[], fun _ => false, fun _ => false⟩ (fun _ => 0) rfl⟩

/-- C6 counterexample: the round-trip fails when the path already holds a
longer file.  The path holds 177 bytes; locking an empty mapping under
password `"a"` succeeds, yet unlocking with the same password panics (the
stale trailing byte corrupts the ciphertext length) instead of returning
the mapping. -/
theorem lock_unlock_roundtrip_cex :
    ((lock ⟨[112], []⟩ [97]
        ⟨[([112], List.replicate 177 7)], fun _ => false, fun _ => false⟩ (fun _ => 0)).1
      = Except.ok ⟨[112]⟩) ∧
    ((unlock ⟨[112]⟩ [97]
        (lock ⟨[112], []⟩ [97]
          ⟨[([112], List.replicate 177 7)], fun _ => false, fun _ => false⟩ (fun _ => 0)).2).1
      = RResult.panicked) := ⟨rfl, rfl⟩

/-- C6 (amended): for every mapping `M` and password `P`, a successful
`lock` followed by `unlock` of the same path with `P` returns an Unlocked
file whose mapping equals `M`, provided the path's prior contents (if any)
are no longer than the freshly written envelope (otherwise the
non-truncating write leaves stale bytes, see the counterexample) and the
mapping's sizes fit in the `u64` length prefixes. -/
theorem lock_unlock_roundtrip (u : UnlockedCrypt) (pw : Str) (w : World) (ent : Nat → Nat)
    (l : LockedCrypt) (w1 : World)
    (hfits : dataFits u.data = true)
    (hold : ((fsGet w u.filepath).getD []).length ≤
      160 + (encryption.pkcs7Pad (serialize_bytes u.data)).length)
    (hlock : lock u pw w ent = (Except.ok l, w1)) :
    (unlock ⟨u.filepath⟩ pw w1).1 = RResult.ok ⟨u.filepath, u.data⟩ := by
  obtain ⟨-, enc, henc, hw1⟩ := lock_ok_spec _ _ _ _ _ _ hlock
  have hkey : (encryption.recover_key pw (encryption.random_bytes ent 0 16)
      (encryption.random_bytes ent 16 128)).length = 32 :=
    encryption.length_recover_key _ _ _
  have henclen : enc.length = 160 + (encryption.pkcs7Pad (serialize_bytes u.data)).length := by
    rw [encryption.encrypt_slice_eq] at henc
    have he := (Except.ok.injEq _ _).mp henc
    rw [← he]
    simp only [List.length_append, encryption.length_random_bytes]
    rw [encryption.length_encrypt_vec _ _ _ hkey (encryption.length_random_bytes ent 144 16)]
  have hdropnil : ((fsGet w u.filepath).getD []).drop enc.length = [] := by
    apply List.drop_eq_nil_of_le
    omega
  have hget : fsGet w1 u.filepath = some enc := by
    rw [hw1, hdropnil, List.append_nil]
    simp only [fsGet, fsPut]
    rw [aget_ainsert_self]
  simp only [unlock, hget]
  simp only [encryption.decrypt_encrypt_slice pw (serialize_bytes u.data) ent enc henc,
    bincode_roundtrip u.data hfits]

/-- Witness for the amended C6: locking mapping `[k ↦ v]` under password
`"a"` at a fresh path and unlocking it again returns the same mapping. -/
theorem lock_unlock_roundtrip_witness :
    (dataFits ([([107], [118])] : CryptData) = true) ∧
    (((fsGet ⟨[], fun _ => false, fun _ => false⟩ [112]).getD []).length ≤
      160 + (encryption.pkcs7Pad (serialize_bytes [([107], [118])])).length) ∧
    ((unlock ⟨[112]⟩ [97]
        (lock ⟨[112], [([107], [118])]⟩ [97]
          ⟨[], fun _ => false, fun _ => false⟩ (fun _ => 0)).2).1
      = RResult.ok ⟨[112], [([107], [118])]⟩) :=
  ⟨by decide, by decide,
    lock_unlock_roundtrip ⟨[112], [([107], [118])]⟩ [97]
      ⟨[], fun _ => false, fun _ => false⟩ (fun _ => 0) ⟨[112]⟩
      (lock ⟨[112], [([107], [118])]⟩ [97]
        ⟨[], fun _ => false, fun _ => false⟩ (fun _ => 0)).2
      (by decide) (by decide) rfl⟩

/-- C8: `Repl::lock_file` is tri-state.  If the alias is absent it returns
`Ok(false)` leaving registry and filesystem untouched.  If the alias is
bound to `(pw, f)` and the lock succeeds, the entry is removed and
`Ok(true)` is returned.  If the lock fails, the same unlocked file (the
one handed back by `lock`, equal to `f`) is reinserted with the same
password under the same alias, other aliases are untouched, and the error
is returned. -/
theorem lock_file_tristate (repl : Repl) (al : Str) (w : World) (ent : Nat → Nat) :
    (aget repl.open_files al = none →
      lock_file repl al w ent = (Except.ok false, repl, w)) ∧
    (∀ pw f, aget repl.open_files al = some (pw, f) →
      (∀ l w1, lock f pw w ent = (Except.ok l, w1) →
        lock_file repl al w ent = (Except.ok true, ⟨aremove repl.open_files al⟩, w1) ∧
        aget (aremove repl.open_files al) al = none) ∧
      (∀ u e w1, lock f pw w ent = (Except.error (u, e), w1) →
        lock_file repl al w ent
          = (Except.error e, ⟨ainsert (aremove repl.open_files al) al (pw, u)⟩, w1) ∧
        u = f ∧
        aget (ainsert (aremove repl.open_files al) al (pw, u)) al = some (pw, f) ∧
        (∀ al2, al2 ≠ al →
          aget (ainsert (aremove repl.open_files al) al (pw, u)) al2
            = aget repl.open_files al2))) := by
  refine ⟨?_, ?_⟩
  · intro h
    simp [lock_file, h]
  · intro pw f h
    refine ⟨?_, ?_⟩
    · intro l w1 hl
      constructor
      · simp only [lock_file, h, hl]
      · exact aget_aremove_self _ _
    · intro u e w1 he
      have hu : u = f := lock_error_preserves f pw w ent u e (by rw [he])
      refine ⟨by simp only [lock_file, h, he], hu, ?_, ?_⟩
      · rw [aget_ainsert_self, hu]
      · intro al2 hne
        rw [aget_ainsert_ne _ _ _ _ hne, aget_aremove_ne _ _ _ hne]

/-- Witness for C8: a one-entry registry whose lock fails (open is made to
fail) reinserts the entry and returns the error. -/
theorem lock_file_tristate_witness :
    (aget [([97], ([98], (⟨[112], []⟩ : UnlockedCrypt)))] [97] = some ([98], ⟨[112], []⟩)) ∧
    (lock ⟨[112], []⟩ [98] ⟨[], fun _ => true, fun _ => false⟩ (fun _ => 0)
      = (Except.error (⟨[112], []⟩, CryptFileError.ioError),
         ⟨[], fun _ => true, fun _ => false⟩)) ∧
    (lock_file ⟨[([97], ([98], ⟨[112], []⟩))]⟩ [97]
        ⟨[], fun _ => true, fun _ => false⟩ (fun _ => 0)).1
      = Except.error CryptFileError.ioError := by
  refine ⟨rfl, rfl, ?_⟩
  have h := ((lock_file_tristate ⟨[([97], ([98], ⟨[112], []⟩))]⟩ [97]
    ⟨[], fun _ => true, fun _ => false⟩ (fun _ => 0)).2 [98] ⟨[112], []⟩ rfl).2
    ⟨[112], []⟩ CryptFileError.ioError ⟨[], fun _ => true, fun _ => false⟩ rfl
  rw [h.1]

theorem lockAllGo_spec (entries : List (Str × (Str × UnlockedCrypt))) :
    ∀ (w : World) (ent : Nat → Nat),
      List.Sublist (lockAllGo entries w ent).1.1 entries ∧
      ((lockAllGo entries w ent).1.2.map Prod.fst
        = (lockAllGo entries w ent).1.1.map Prod.fst) ∧
      (∀ x ∈ entries, x ∉ (lockAllGo entries w ent).1.1 →
        (fsGet (lockAllGo entries w ent).2 x.2.2.filepath).isSome) := by
  induction entries with
  | nil =>
    intro w ent
    exact ⟨List.nil_sublist _, rfl, by intro x hx; simp at hx⟩
  | cons x rest ih =>
    intro w ent
    obtain ⟨al, pw, f⟩ := x
    cases hlock : lock f pw w ent with
    | mk r w1 =>
      cases r with
      | ok l =>
        have heq : lockAllGo ((al, (pw, f)) :: rest) w ent
            = lockAllGo rest w1 (shiftEnt ent) := by
          simp only [lockAllGo, hlock]
        obtain ⟨ihsub, ihmap, ihpers⟩ := ih w1 (shiftEnt ent)
        rw [heq]
        refine ⟨ihsub.cons _, ihmap, ?_⟩
        intro y hy hynot
        rcases List.mem_cons.mp hy with h1 | h2
        · subst h1
          have hws : (fsGet w1 f.filepath).isSome := lock_ok_writes f pw w ent l w1 hlock
          exact lockAllGo_world_isSome rest w1 (shiftEnt ent) _ hws
        · exact ihpers y h2 hynot
      | error pr =>
        obtain ⟨u, e⟩ := pr
        have hu : u = f := lock_error_preserves f pw w ent u e (by rw [hlock])
        subst hu
        have heq : lockAllGo ((al, (pw, u)) :: rest) w ent =
            (((al, (pw, u)) :: (lockAllGo rest w1 (shiftEnt ent)).1.1,
              (al, e) :: (lockAllGo rest w1 (shiftEnt ent)).1.2),
             (lockAllGo rest w1 (shiftEnt ent)).2) := by
          simp only [lockAllGo, hlock]
        obtain ⟨ihsub, ihmap, ihpers⟩ := ih w1 (shiftEnt ent)
        rw [heq]
        refine ⟨ihsub.cons₂ _, by simp [ihmap], ?_⟩
        intro y hy hynot
        simp only [List.mem_cons] at hy hynot
        push_neg at hynot
        rcases hy with h1 | h2
        · exact absurd h1 hynot.1
        · exact ihpers y h2 hynot.2

/-- C3: `Repl::lock_all_files` locks each open entry in turn.  The
registry afterwards is a sublist of the original one (failing entries stay
exactly as they were, with their password and unsaved mapping); the result
is `Ok` exactly when nothing remains; when it is an error report, the
report's aliases are exactly the aliases still in the registry (the failed
ones); and every entry that was removed had its file persisted — its path
exists in the final filesystem. -/
theorem lock_all_files_spec (repl : Repl) (w : World) (ent : Nat → Nat) :
    List.Sublist (lock_all_files repl w ent).2.1.open_files repl.open_files ∧
    ((lock_all_files repl w ent).1 = Except.ok () ↔
      (lock_all_files repl w ent).2.1.open_files = []) ∧
    (∀ errs, (lock_all_files repl w ent).1 = Except.error errs →
      errs.map Prod.fst = (lock_all_files repl w ent).2.1.open_files.map Prod.fst) ∧
    (∀ x ∈ repl.open_files, x ∉ (lock_all_files repl w ent).2.1.open_files →
      (fsGet (lock_all_files repl w ent).2.2 x.2.2.filepath).isSome) := by
  obtain ⟨hsub, hmap, hpers⟩ := lockAllGo_spec repl.open_files w ent
  by_cases hempty : (lockAllGo repl.open_files w ent).1.1.isEmpty
  · have hnil : (lockAllGo repl.open_files w ent).1.1 = [] := by
      rwa [List.isEmpty_iff] at hempty
    have heq : lock_all_files repl w ent
        = (Except.ok (), ⟨[]⟩, (lockAllGo repl.open_files w ent).2) := by
      simp only [lock_all_files, hempty, if_true]
    rw [heq]
    refine ⟨List.nil_sublist _, by simp, by intro errs h; exact absurd h (by simp), ?_⟩
    intro x hx hnx
    apply hpers x hx
    rw [hnil]
    simp
  · have heq : lock_all_files repl w ent =
        (Except.error (lockAllGo repl.open_files w ent).1.2,
         ⟨(lockAllGo repl.open_files w ent).1.1⟩,
         (lockAllGo repl.open_files w ent).2) := by
      simp only [lock_all_files, hempty, if_false, Bool.false_eq_true]
    rw [heq]
    have hne : (lockAllGo repl.open_files w ent).1.1 ≠ [] := by
      intro h0
      exact hempty (by simp [h0])
    refine ⟨hsub, ?_, ?_, hpers⟩
    · constructor
      · intro h; exact absurd h (by simp)
      · intro h; exact absurd h hne
    · intro errs h
      have he2 : (lockAllGo repl.open_files w ent).1.2 = errs :=
        (Except.error.injEq _ _).mp h
      rw [← he2]
      exact hmap

/-- Witness for C3: three open aliases, the middle one's path is made to
fail on open.  The first entry is removed from the registry and its file
exists afterwards. -/
theorem lock_all_files_spec_witness :
    (([97], ([107], (⟨[1], []⟩ : UnlockedCrypt)))
      ∈ [([97], ([107], (⟨[1], []⟩ : UnlockedCrypt))),
         ([98], ([107], ⟨[2], []⟩)), ([99], ([107], ⟨[3], []⟩))]) ∧
    (([97], ([107], (⟨[1], []⟩ : UnlockedCrypt)))
      ∉ (lock_all_files
          ⟨[([97], ([107], ⟨[1], []⟩)), ([98], ([107], ⟨[2], []⟩)),
            ([99], ([107], ⟨[3], []⟩))]⟩
          ⟨[], fun p => decide (p = [2]), fun _ => false⟩ (fun _ => 0)).2.1.open_files) ∧
    (fsGet (lock_all_files
        ⟨[([97], ([107], ⟨[1], []⟩)), ([98], ([107], ⟨[2], []⟩)),
          ([99], ([107], ⟨[3], []⟩))]⟩
        ⟨[], fun p => decide (p = [2]), fun _ => false⟩ (fun _ => 0)).2.2 [1]).isSome :=
  ⟨by decide, by decide,
    (lock_all_files_spec
      ⟨[([97], ([107], ⟨[1], []⟩)), ([98], ([107], ⟨[2], []⟩)),
        ([99], ([107], ⟨[3], []⟩))]⟩
      ⟨[], fun p => decide (p = [2]), fun _ => false⟩ (fun _ => 0)).2.2.2
      ([97], ([107], ⟨[1], []⟩)) (by decide) (by decide)⟩
